import Mathlib

/-!
# Verification of the trigram search engine (vs-search-everything)

A shallow embedding of the core of the repository: the text
normalizer / tokenizer (`src/utils/trigramUtils.ts`), the in-memory
storage adapter (`src/storage/inMemoryTrigramStorage.ts`), the
relational storage adapter's query semantics
(`src/storage/sqliteTrigramStorage.ts`), and the query pipeline
(`src/services/trigramIndexService.ts`).

JS strings are modelled as `List Char` (sequences of code units; the
inputs exercised here are ASCII, for which Lean's `Char.toLower`
agrees with JS `toLowerCase`).  JS `Map` and `Set` preserve insertion
order, so they are modelled as association lists / duplicate-free
lists to which new entries are appended.
-/

namespace SearchEverything

/-- JS strings as lists of code units. -/
abbrev Str := List Char

/-- The character class `[a-z]` of the source's regexes (ASCII). -/
def isLowerAZ (c : Char) : Bool := 'a' ≤ c && c ≤ 'z'

/-- The character class `[A-Z]` of the source's regexes (ASCII). -/
def isUpperAZ (c : Char) : Bool := 'A' ≤ c && c ≤ 'Z'

/-- The character class `[0-9]`. -/
def isDigit09 (c : Char) : Bool := '0' ≤ c && c ≤ '9'

/-- The character class `[a-zA-Z0-9]` used by the trigram filter and the
word-boundary test. -/
def isAlnumCh (c : Char) : Bool := isLowerAZ c || isUpperAZ c || isDigit09 c

/-- JS `String.prototype.toLowerCase` restricted to ASCII, which is what
Lean's `Char.toLower` implements. -/
def jsLower (c : Char) : Char := c.toLower

/-- The separator class `[_\-\s]` used by `extractCamelCaseTokens`
(ASCII whitespace). -/
def isSepCh (c : Char) : Bool :=
  c = '_' || c = '-' || c = ' ' || c = '\t' || c = '\n' || c = '\r' ||
  c = '\x0b' || c = '\x0c'

/-- JS `String.prototype.startsWith`. -/
def startsWithL : Str → Str → Bool
  | _, [] => true
  | [], _ :: _ => false
  | c :: cs, q :: qs => c = q && startsWithL cs qs

/-- JS `String.prototype.includes`. -/
def containsL : Str → Str → Bool
  | [], q => q.isEmpty
  | c :: cs, q => startsWithL (c :: cs) q || containsL cs q

/-- JS `String.prototype.trim` (ASCII whitespace). -/
def isWsCh (c : Char) : Bool :=
  c = ' ' || c = '\t' || c = '\n' || c = '\r' || c = '\x0b' || c = '\x0c'

def trimL (s : Str) : Str :=
  (s.dropWhile isWsCh).reverse.dropWhile isWsCh |>.reverse

namespace TrigramUtils

/-- `substring(i, i + 3)`: the 3-code-unit window of `T` starting at `i`. -/
def windowAt (T : Str) (i : Nat) : Str := (T.drop i).take 3

/-- `/[a-zA-Z0-9]/.test(trigram)`. -/
def hasAlnum (w : Str) : Bool := w.any isAlnumCh

/-- One iteration of the `generateTrigrams` loop body: add the window to
the (insertion-ordered, duplicate-free) set when it passes the
alphanumeric filter. -/
def addTri (acc : List Str) (w : Str) : List Str :=
  if hasAlnum w then (if w ∈ acc then acc else acc ++ [w]) else acc

/-- `TrigramUtils.generateTrigrams` (trigramUtils.ts:8-25): all 3-unit
windows of the (optionally lowercased) text, alphanumeric-filtered,
deduplicated in first-occurrence order.  Texts shorter than 3 units
yield none. -/
def generateTrigrams (text : Str) (caseSensitive : Bool) : List Str :=
  if text.length < 3 then []
  else
    let T := if caseSensitive then text else text.map jsLower
    (List.range (T.length - 2)).foldl (fun acc i => addTri acc (windowAt T i)) []

/-- The marker `'\0'` that the two `replace` calls of
`extractCamelCaseTokens` insert between tokens. -/
def marker : Char := Char.ofNat 0

/-- `part.replace(/([a-z])([A-Z])/g, '$1\0$2')`: the pattern is two code
units and its two halves lie in disjoint classes, so matches cannot
overlap and the global replace inserts the marker between every
adjacent (lowercase, uppercase) pair. -/
def rep1 : Str → Str
  | [] => []
  | [c] => [c]
  | c1 :: c2 :: rest =>
    if isLowerAZ c1 && isUpperAZ c2 then c1 :: marker :: rep1 (c2 :: rest)
    else c1 :: rep1 (c2 :: rest)

/-- `.replace(/([A-Z]+)([A-Z][a-z])/g, '$1\0$2')`: with greedy
backtracking the marker lands exactly between `s[i]` and `s[i+1]`
whenever `s[i]` and `s[i+1]` are uppercase and `s[i+2]` is lowercase;
two such positions can never be adjacent, so a left-to-right scan
inserting at each of them reproduces the global replace. -/
def rep2 : Str → Str
  | c1 :: c2 :: c3 :: rest =>
    if isUpperAZ c1 && isUpperAZ c2 && isLowerAZ c3 then
      c1 :: marker :: rep2 (c2 :: c3 :: rest)
    else c1 :: rep2 (c2 :: c3 :: rest)
  | s => s

/-- Cons a character onto the first chunk of a split result. -/
def consHead (c : Char) : List Str → List Str
  | [] => [[c]]
  | t :: ts => (c :: t) :: ts

/-- `.split('\0')`. -/
def splitMarker : Str → List Str
  | [] => [[]]
  | c :: rest => if c = marker then [] :: splitMarker rest else consHead c (splitMarker rest)

/-- The CamelCase splitting of one separator-free part:
two marker-inserting replaces, split on the marker, drop empties
(trigramUtils.ts:67-71). -/
def camelTokens (part : Str) : List Str :=
  (splitMarker (rep2 (rep1 part))).filter (fun t => !t.isEmpty)

/-- `text.split(/[_\-\s]+/)` followed by dropping empty parts is the same
as splitting at every single separator character and dropping empty
parts; `splitRuns` does the single-character split. -/
def splitRuns (s : Str) : List Str :=
  s.foldr (fun c acc => if isSepCh c then [] :: acc else consHead c acc) [[]]

/-- `TrigramUtils.extractCamelCaseTokens` (trigramUtils.ts:57-77). -/
def extractCamelCaseTokens (text : Str) : List Str :=
  ((splitRuns text).filter (fun p => !p.isEmpty)).flatMap camelTokens

/-- The loose walk of `matchesAbbreviation` (trigramUtils.ts:173-189):
the first two branches of the loop body both advance the query and the
token (the first-letter test is subsumed by `includes`), the third
skips the token. -/
def looseWalk : Str → List Str → Bool
  | [], _ => true
  | _ :: _, [] => false
  | q :: qs, tok :: toks =>
    if q ∈ tok then looseWalk qs toks else looseWalk (q :: qs) toks

/-- First letter of a token (tokens produced by `camelTokens` are
non-empty; JS `t[0]` on an empty token would be `undefined`). -/
def firstLetter (t : Str) : Str := t.take 1

/-- `TrigramUtils.matchesAbbreviation` (trigramUtils.ts:157-192). -/
def matchesAbbreviation (query text : Str) : Bool :=
  let tokens := extractCamelCaseTokens text
  if tokens.isEmpty then false
  else
    let queryLower := query.map jsLower
    let tokensLower := tokens.map (List.map jsLower)
    let concatenated := tokensLower.flatten
    if startsWithL concatenated queryLower then true
    else
      let firstLetters := (tokensLower.map firstLetter).flatten
      if startsWithL firstLetters queryLower then true
      else looseWalk queryLower tokensLower

/-- The fuzzy character-match loop of `calculateMatchScore`
(trigramUtils.ts:214-235).  `prev` is the previous text character
(`none` at position 0) and `prevBonus` is the value of the source's
test `lastMatchIdx === i - 1` at the current position: `lastMatchIdx`
starts at -1, so the test holds at `i = 0` — the initial call passes
`true` — and afterwards exactly when the previous text position was a
match.  Returns the accumulated score and the unmatched remainder of
the query. -/
def fuzzyLoop : Str → Str → Option Char → Bool → Int → Int × Str
  | [], q, _, _, acc => (acc, q)
  | _ :: _, [], _, _, acc => (acc, [])
  | c :: ts, qc :: qs, prev, prevBonus, acc =>
    if c = qc then
      let a1 := acc + 100
      let a2 := if prevBonus then a1 + 50 else a1
      let a3 :=
        if (match prev with | none => true | some p => !isAlnumCh p) then a2 + 25 else a2
      fuzzyLoop ts qs (some c) true a3
    else fuzzyLoop ts (qc :: qs) (some c) false acc

/-- `TrigramUtils.calculateMatchScore` (trigramUtils.ts:197-244).  The
fuzzy walk starts with the `lastMatchIdx === i - 1` test already true
(`lastMatchIdx = -1` at `i = 0`), so a match at text position 0 gets
the +50 bonus. -/
def calculateMatchScore (query text : Str) (caseSensitive : Bool) : Int :=
  let pq := if caseSensitive then query else query.map jsLower
  let pt := if caseSensitive then text else text.map jsLower
  if pt = pq then 1000
  else if startsWithL pt pq then 900
  else if containsL pt pq then 800
  else if matchesAbbreviation query text then 700
  else
    let r := fuzzyLoop pt pq none true 0
    if !r.2.isEmpty then 0
    else max 0 (r.1 - 5 * ((pt.length : Int) - (pq.length : Int)).natAbs)

end TrigramUtils

/-!
## Posting indexes

`InMemoryTrigramStorage` keeps each inverted index as a sharded family
of `Map<term, Set<itemId>>`.  The shard (selected by leading code
units of the term) only partitions the key space — every lookup and
update uses the full term as key — so the whole index is modelled as
one insertion-ordered association list `term → duplicate-free list of
item ids`.  The stored statistics counters are not modelled: the
observable `getStats` recomputes all totals by iteration.
-/

namespace Index

/-- One inverted index: insertion-ordered association list from term to
its (insertion-ordered, duplicate-free) posting set. -/
abbrev Idx := List (Str × List Nat)

/-- The posting set of a term (`shard.get(term)`, empty if absent). -/
def lookupIds : Idx → Str → List Nat
  | [], _ => []
  | (k, ids) :: rest, tg => if k = tg then ids else lookupIds rest tg

/-- One iteration of `addTrigrams` / `addTokens`
(inMemoryTrigramStorage.ts:171-184, 228-241): `Set.add` on the existing
posting set, or a fresh map entry. -/
def addPosting : Idx → Str → Nat → Idx
  | [], tg, id => [(tg, [id])]
  | (k, ids) :: rest, tg, id =>
    if k = tg then (k, if id ∈ ids then ids else ids ++ [id]) :: rest
    else (k, ids) :: addPosting rest tg id

/-- `addTrigrams` / `addTokens` over a batch of `(term, itemId)` pairs. -/
def addPostings (idx : Idx) (ps : List (Str × Nat)) : Idx :=
  ps.foldl (fun a p => addPosting a p.1 p.2) idx

/-- `removeTrigrams(itemId)` / `removeTokens(itemId)`
(inMemoryTrigramStorage.ts:186-206): erase the item from every posting
set and drop entries that become empty. -/
def removeItem (idx : Idx) (id : Nat) : Idx :=
  (idx.map (fun e => (e.1, e.2.filter (fun j => j ≠ id)))).filter
    (fun e => !e.2.isEmpty)

/-- `scores.set(itemId, (scores.get(itemId) || 0) + 1)` on an
insertion-ordered map. -/
def bump : List (Nat × Nat) → Nat → List (Nat × Nat)
  | [], id => [(id, 1)]
  | (k, v) :: rest, id =>
    if k = id then (k, v + 1) :: rest else (k, v) :: bump rest id

/-- `searchTrigrams` / `searchTokens`
(inMemoryTrigramStorage.ts:208-225, 265-282): for each query term, bump
the score of every item posted under it. -/
def searchIndex (idx : Idx) (ts : List Str) : List (Nat × Nat) :=
  ts.foldl (fun sc tg => (lookupIds idx tg).foldl bump sc) []

/-- `Map.get` on the result of a counted lookup. -/
def lookupCount : List (Nat × Nat) → Nat → Option Nat
  | [], _ => none
  | (k, v) :: rest, id => if k = id then some v else lookupCount rest id

/-- Well-formedness: every posting set is duplicate-free (maintained by
`Set.add`). -/
def WF (idx : Idx) : Prop := ∀ e ∈ idx, e.2.Nodup

instance : DecidablePred WF := fun idx =>
  inferInstanceAs (Decidable (∀ e ∈ idx, e.2.Nodup))

end Index

/-!
## The in-memory storage adapter
-/

namespace InMemory

/-- The item record handed to `addItem` (`id` is assigned by the store;
`type`, `parentId` and `metadata` play no role in the verified
claims and are omitted). -/
structure Item where
  path : Str
  name : Str
deriving DecidableEq, Repr

/-- A stored item (`{ ...item, id }`). -/
structure StoredItem where
  id : Nat
  path : Str
  name : Str
deriving DecidableEq, Repr

/-- The observable state of `InMemoryTrigramStorage`. -/
structure State where
  itemsById : List (Nat × StoredItem)
  itemsByPath : List (Str × StoredItem)
  trigramIdx : Index.Idx
  tokenIdx : Index.Idx
  nextId : Nat
deriving DecidableEq, Repr

/-- The fresh store (constructor / `clear`,
inMemoryTrigramStorage.ts:57-68). -/
def emptyState : State :=
  { itemsById := [], itemsByPath := [], trigramIdx := [], tokenIdx := [], nextId := 1 }

/-- `Map.set`: replace the value in place if the key exists, else append. -/
def mapSet {α β : Type} [DecidableEq α] : List (α × β) → α → β → List (α × β)
  | [], k, v => [(k, v)]
  | (k', v') :: rest, k, v =>
    if k' = k then (k', v) :: rest else (k', v') :: mapSet rest k v

/-- `Map.get`. -/
def mapGet {α β : Type} [DecidableEq α] : List (α × β) → α → Option β
  | [], _ => none
  | (k', v') :: rest, k => if k' = k then some v' else mapGet rest k

/-- `Map.delete`. -/
def mapDelete {α β : Type} [DecidableEq α] : List (α × β) → α → List (α × β)
  | [], _ => []
  | (k', v') :: rest, k =>
    if k' = k then rest else (k', v') :: mapDelete rest k

/-- `InMemoryTrigramStorage.addItem` (inMemoryTrigramStorage.ts:100-108):
takes the next id, stores the item under it, and indexes it by path.
No duplicate-path check is performed. -/
def addItem (st : State) (item : Item) : State × Nat :=
  let id := st.nextId
  let itemWithId : StoredItem := { id := id, path := item.path, name := item.name }
  ({ st with
      itemsById := mapSet st.itemsById id itemWithId
      itemsByPath := mapSet st.itemsByPath item.path itemWithId
      nextId := st.nextId + 1 }, id)

/-- The storage error kinds of the spec that the verified operations
can raise. -/
inductive StorageError where
  | notFound
  | duplicatePath
deriving DecidableEq, Repr

/-- A partial update: the `name` / `path` fields of the patch object. -/
structure Patch where
  path : Option Str := none
  name : Option Str := none
deriving DecidableEq, Repr

/-- `{ ...existing, ...item }`. -/
def applyPatch (existing : StoredItem) (p : Patch) : StoredItem :=
  { existing with
      path := p.path.getD existing.path
      name := p.name.getD existing.name }

/-- `InMemoryTrigramStorage.updateItem` (inMemoryTrigramStorage.ts:110-124):
throws when the id is absent; otherwise merges the patch and refreshes
the path index when the path changed. -/
def updateItem (st : State) (id : Nat) (p : Patch) : Except StorageError State :=
  match mapGet st.itemsById id with
  | none => .error .notFound
  | some existing =>
    let updated := applyPatch existing p
    let st' := { st with itemsById := mapSet st.itemsById id updated }
    .ok <|
      match p.path with
      | some newPath =>
        if newPath ≠ existing.path then
          { st' with itemsByPath := mapSet (mapDelete st'.itemsByPath existing.path) newPath updated }
        else st'
      | none => st'

/-- `InMemoryTrigramStorage.deleteItem` (inMemoryTrigramStorage.ts:126-136):
early return when the id is absent, else remove the item and purge
its trigram and token postings. -/
def deleteItem (st : State) (id : Nat) : State :=
  match mapGet st.itemsById id with
  | none => st
  | some item =>
    { st with
        itemsById := mapDelete st.itemsById id
        itemsByPath := mapDelete st.itemsByPath item.path
        trigramIdx := Index.removeItem st.trigramIdx id
        tokenIdx := Index.removeItem st.tokenIdx id }

/-- `getAllItems` (insertion order of the `itemsById` map). -/
def getAllItems (st : State) : List StoredItem := st.itemsById.map (·.2)

/-- `getItem`. -/
def getItem (st : State) (id : Nat) : Option StoredItem := mapGet st.itemsById id

/-- `getStats` (inMemoryTrigramStorage.ts:298-325): all totals are
recomputed from the maps. -/
structure Stats where
  totalItems : Nat
  totalTrigrams : Nat
  totalTokens : Nat
deriving DecidableEq, Repr

def getStats (st : State) : Stats :=
  { totalItems := st.itemsById.length
    totalTrigrams := (st.trigramIdx.map (fun e => e.2.length)).sum
    totalTokens := (st.tokenIdx.map (fun e => e.2.length)).sum }

end InMemory

/-!
## The relational (sql.js) storage adapter: query semantics

The persistent store is relational; its tables are modelled as row
lists and its SQL statements by their standard semantics.
-/

namespace Sqlite

/-- A row of the `items` table (columns not used by the claims omitted). -/
structure Row where
  id : Nat
  path : Str
  name : Str
deriving DecidableEq, Repr

/-- The `items` table plus the AUTOINCREMENT sequence. -/
structure State where
  items : List Row
  seq : Nat
deriving DecidableEq, Repr

def emptyState : State := { items := [], seq := 1 }

/-- `SqliteTrigramStorage.addItem` (sqliteTrigramStorage.ts:229-266):
`INSERT INTO items …` against the `path TEXT NOT NULL UNIQUE` column of
the schema (sqliteTrigramStorage.ts:102-112); the insert fails on a
unique-constraint violation, otherwise AUTOINCREMENT assigns a fresh
id that is returned via `last_insert_rowid()`. -/
def addItem (st : State) (item : InMemory.Item) : Except InMemory.StorageError (State × Nat) :=
  if st.items.any (fun r => r.path = item.path) then .error .duplicatePath
  else
    let id := st.seq
    .ok ({ items := st.items ++ [{ id := id, path := item.path, name := item.name }],
           seq := st.seq + 1 }, id)

/-- `SqliteTrigramStorage.deleteItem` (sqliteTrigramStorage.ts:305-308):
`DELETE FROM items WHERE id = ?`.  (No `PRAGMA foreign_keys` is issued,
so the schema's `ON DELETE CASCADE` clauses are inert at runtime and
the statement touches only the `items` table.) -/
def deleteItem (st : State) (id : Nat) : State :=
  { st with items := st.items.filter (fun r => r.id ≠ id) }

/-- `SELECT * FROM items WHERE id = ?`. -/
def getItem (st : State) (id : Nat) : Option Row :=
  st.items.find? (fun r => r.id = id)

/-- Deduplicate keeping first occurrences. -/
def dedup : List Nat → List Nat
  | [] => []
  | x :: xs => if x ∈ xs then dedup xs else x :: dedup xs

/-- Deduplicate keeping first occurrences (terms). -/
def dedupS : List Str → List Str
  | [] => []
  | x :: xs => if x ∈ xs then dedupS xs else x :: dedupS xs

/-- A row of the `trigrams` table: `(trigram, item_id, position)`. -/
abbrev TRow := Str × Nat × Nat

/-- `SqliteTrigramStorage.searchTrigrams` (sqliteTrigramStorage.ts:379-402):
`SELECT item_id, COUNT(DISTINCT trigram) FROM trigrams WHERE trigram IN
(…) GROUP BY item_id HAVING match_count = ?` with the bound parameter
`trigrams.length` (the length of the query list, duplicates included). -/
def searchTrigrams (rows : List TRow) (ts : List Str) : List (Nat × Nat) :=
  if ts.isEmpty then []
  else
    let matching := rows.filter (fun r => r.1 ∈ ts)
    let ids := dedup (matching.map (fun r => r.2.1))
    let grouped := ids.map (fun id =>
      (id, (dedupS ((matching.filter (fun r => r.2.1 = id)).map (·.1))).length))
    grouped.filter (fun p => p.2 = ts.length)

end Sqlite

/-!
## The query pipeline (`TrigramIndexService.search`)
-/

namespace Service

open TrigramUtils InMemory

/-- One merged search result (the `matchedTrigrams` / `matchedTokens`
diagnostics of the source's `SearchResult` are not modelled). -/
structure SResult where
  item : StoredItem
  score : Int
deriving DecidableEq, Repr

/-- The accumulating `results` map keyed by item id, in insertion
order. -/
abbrev RMap := List (Nat × SResult)

def hasKey (m : RMap) (id : Nat) : Bool := m.any (fun e => e.1 = id)

/-- The trigram stage (trigramIndexService.ts:416-441). -/
def stage1 (st : State) (cs : Bool) (minTrigramLength : Nat) (pq : Str) : RMap :=
  if minTrigramLength ≤ pq.length then
    let tgs := generateTrigrams pq cs
    if tgs.isEmpty then []
    else
      (Index.searchIndex st.trigramIdx tgs).foldl (fun acc idc =>
        match getItem st idc.1 with
        | none => acc
        | some item =>
          let sc := calculateMatchScore pq item.name cs
          if 0 < sc then acc ++ [(idc.1, ⟨item, sc⟩)] else acc) []
  else []

/-- The token stage (trigramIndexService.ts:444-473): items already in
the map are skipped; new token hits get a +100 boost. -/
def stage2 (st : State) (cs : Bool) (enableCamelCase : Bool) (pq : Str) (r1 : RMap) : RMap :=
  if enableCamelCase then
    let toks := extractCamelCaseTokens pq
    if toks.isEmpty then r1
    else
      let ptoks := toks.map (fun t => if cs then t else t.map jsLower)
      (Index.searchIndex st.tokenIdx ptoks).foldl (fun acc idc =>
        if hasKey acc idc.1 then acc
        else
          match getItem st idc.1 with
          | none => acc
          | some item =>
            let sc := calculateMatchScore pq item.name cs
            if 0 < sc then acc ++ [(idc.1, ⟨item, sc + 100⟩)] else acc) r1
  else r1

/-- The abbreviation stage (trigramIndexService.ts:475-485): every item
not yet in the map whose name abbreviation-matches the query is added
with the flat score 600. -/
def stage3 (st : State) (enableCamelCase : Bool) (pq : Str) (r2 : RMap) : RMap :=
  if enableCamelCase then
    (getAllItems st).foldl (fun acc item =>
      if hasKey acc item.id then acc
      else if matchesAbbreviation pq item.name then acc ++ [(item.id, ⟨item, 600⟩)]
      else acc) r2
  else r2

/-- Stable insertion for the descending sort: an element goes in front
of the first element whose score it reaches, so earlier elements win
ties — the behaviour of JS's stable `Array.prototype.sort` under the
comparator `(a, b) => b.score - a.score`. -/
def insertDesc (x : SResult) : List SResult → List SResult
  | [] => [x]
  | y :: ys => if y.score ≤ x.score then x :: y :: ys else y :: insertDesc x ys

def sortDesc : List SResult → List SResult
  | [] => []
  | x :: xs => insertDesc x (sortDesc xs)

/-- `TrigramIndexService.search` (trigramIndexService.ts:404-496):
trim, run the three stages over the insertion-ordered result map, sort
by score descending (stable), truncate to `maxResults`. -/
def search (st : State) (cs : Bool) (minTrigramLength : Nat) (enableCamelCase : Bool)
    (query : Str) (maxResults : Nat) : List SResult :=
  let trimmed := trimL query
  if trimmed.isEmpty then []
  else
    let r3 := stage3 st enableCamelCase trimmed
      (stage2 st cs enableCamelCase trimmed (stage1 st cs minTrigramLength trimmed))
    (sortDesc (r3.map (·.2))).take maxResults

end Service

/-!
## Spec-worded counterpart definitions

These follow the words of the specification (and of the claims under
check), to be compared with the definitions translated from the
source.
-/

namespace SpecModel

open TrigramUtils InMemory Service

/-- The spec's CamelCase break relation, read off §4.1 "Word Tokens":
break between a lowercase and an immediately following uppercase, and
between a run of uppercases and an uppercase-followed-by-lowercase. -/
def brk (c1 c2 : Char) (c3? : Option Char) : Bool :=
  (isLowerAZ c1 && isUpperAZ c2) ||
  (isUpperAZ c1 && isUpperAZ c2 &&
    (match c3? with | some c3 => isLowerAZ c3 | none => false))

/-- One-pass CamelCase splitting of one part at the spec's break
positions. -/
def specSplitCC : Str → List Str
  | [] => [[]]
  | [c] => [[c]]
  | c1 :: c2 :: rest =>
    if brk c1 c2 rest.head? then [c1] :: specSplitCC (c2 :: rest)
    else consHead c1 (specSplitCC (c2 :: rest))

/-- The spec's word-token extraction: split on separator runs, then
split each non-empty part at the CamelCase break positions. -/
def specTokens (text : Str) : List Str :=
  ((splitRuns text).filter (fun p => !p.isEmpty)).flatMap
    (fun p => (specSplitCC p).filter (fun t => !t.isEmpty))

/-- The token-stage candidates as the claim reads them: every token hit
with positive score, boosted by 100 — with no dependence on the other
stages. -/
def specStage2 (st : State) (cs : Bool) (enableCamelCase : Bool) (pq : Str) : RMap :=
  if enableCamelCase then
    let toks := extractCamelCaseTokens pq
    if toks.isEmpty then []
    else
      let ptoks := toks.map (fun t => if cs then t else t.map jsLower)
      (Index.searchIndex st.tokenIdx ptoks).foldl (fun acc idc =>
        match getItem st idc.1 with
        | none => acc
        | some item =>
          let sc := calculateMatchScore pq item.name cs
          if 0 < sc then acc ++ [(idc.1, ⟨item, sc + 100⟩)] else acc) []
  else []

/-- The abbreviation-stage candidates as the claim reads them: every
abbreviation-matching item at the flat score 600. -/
def specStage3 (st : State) (enableCamelCase : Bool) (pq : Str) : RMap :=
  if enableCamelCase then
    (getAllItems st).foldl (fun acc item =>
      if matchesAbbreviation pq item.name then acc ++ [(item.id, ⟨item, 600⟩)]
      else acc) []
  else []

/-- Merge one candidate into a map keyed by id, keeping the higher
score when the id is already present. -/
def mergeOne : RMap → Nat → SResult → RMap
  | [], id, r => [(id, r)]
  | (k, r') :: m, id, r =>
    if k = id then (k, if r'.score < r.score then r else r') :: m
    else (k, r') :: mergeOne m id r

/-- Merge candidates into a map keyed by id, keeping the higher score
when an item appears more than once. -/
def mergeMax : RMap → List (Nat × SResult) → RMap
  | m, [] => m
  | m, (id, r) :: rest => mergeMax (mergeOne m id r) rest

/-- The claim's ordering: descending score, ties broken by shorter
name. -/
def keyLE (a b : SResult) : Bool :=
  b.score < a.score || (b.score = a.score && a.item.name.length ≤ b.item.name.length)

def insertKey (x : SResult) : List SResult → List SResult
  | [] => [x]
  | y :: ys => if keyLE x y then x :: y :: ys else y :: insertKey x ys

def sortKey : List SResult → List SResult
  | [] => []
  | x :: xs => insertKey x (sortKey xs)

/-- The search pipeline as the claim states it: candidates of the
three stages merged keyed by id keeping the higher score, sorted
descending by score with ties broken by shorter name, truncated to the
limit. -/
def specSearch (st : State) (cs : Bool) (minTrigramLength : Nat) (enableCamelCase : Bool)
    (query : Str) (maxResults : Nat) : List SResult :=
  let trimmed := trimL query
  if trimmed.isEmpty then []
  else
    let cands := stage1 st cs minTrigramLength trimmed ++
      specStage2 st cs enableCamelCase trimmed ++
      specStage3 st enableCamelCase trimmed
    (sortKey ((mergeMax [] cands).map (·.2))).take maxResults

/-- The fuzzy walk as the spec's words describe it: +50 per
consecutive match only, so a first match at text position 0 — which
has no preceding match — gets no consecutive bonus.  (The source
differs: its `lastMatchIdx = -1` initialisation makes the
`lastMatchIdx === i - 1` test true at `i = 0`.) -/
def specFuzzyWalk (pt pq : Str) : Int × Str :=
  TrigramUtils.fuzzyLoop pt pq none false 0

/-- The scoring ladder as the claim states it: the four upper rungs,
then the spec-worded fuzzy walk with the length penalty, zero on an
incomplete walk, clamped at ≥ 0. -/
def specLadderScore (q t : Str) (cs : Bool) : Int :=
  let pq := if cs then q else q.map jsLower
  let pt := if cs then t else t.map jsLower
  if pt = pq then 1000
  else if startsWithL pt pq then 900
  else if containsL pt pq then 800
  else if TrigramUtils.matchesAbbreviation q t then 700
  else
    let r := specFuzzyWalk pt pq
    if !r.2.isEmpty then 0
    else max 0 (r.1 - 5 * ((pt.length : Int) - (pq.length : Int)).natAbs)

end SpecModel

/-!
## Operation sequences over the in-memory store (id assignment)
-/

namespace InMemory

/-- The item-level and posting-level storage operations. -/
inductive Op where
  | add (item : Item)
  | update (id : Nat) (p : Patch)
  | delete (id : Nat)
  | clearOp
  | addTri (ps : List (Str × Nat))
  | removeTri (id : Nat)
  | addTok (ps : List (Str × Nat))
  | removeTok (id : Nat)
deriving DecidableEq, Repr

/-- Execute one operation; the second component is the id returned by
`addItem` (other operations return none).  A failing `updateItem`
leaves the state unchanged. -/
def exec (st : State) : Op → State × Option Nat
  | .add item => let r := addItem st item; (r.1, some r.2)
  | .update id p =>
    match updateItem st id p with
    | .ok st' => (st', none)
    | .error _ => (st, none)
  | .delete id => (deleteItem st id, none)
  | .clearOp => (emptyState, none)
  | .addTri ps => ({ st with trigramIdx := Index.addPostings st.trigramIdx ps }, none)
  | .removeTri id => ({ st with trigramIdx := Index.removeItem st.trigramIdx id }, none)
  | .addTok ps => ({ st with tokenIdx := Index.addPostings st.tokenIdx ps }, none)
  | .removeTok id => ({ st with tokenIdx := Index.removeItem st.tokenIdx id }, none)

/-- Run a sequence of operations, collecting the ids returned by the
`addItem` calls in order. -/
def run (st : State) : List Op → State × List Nat
  | [] => (st, [])
  | op :: ops =>
    let r := exec st op
    let rest := run r.1 ops
    (rest.1, r.2.toList ++ rest.2)

end InMemory

/-!
## Concrete fixture states for witnesses and counterexamples
-/

namespace Fixtures

open TrigramUtils InMemory Service Index

/-- Scenario 5 of the spec: items `getUser` and `getName` with their
trigrams. -/
def c2Add1 : State × Nat := addItem emptyState { path := "f1".data, name := "getUser".data }

def c2Add2 : State × Nat := addItem c2Add1.1 { path := "f2".data, name := "getName".data }

def c2Postings : List (Str × Nat) :=
  ((generateTrigrams "getUser".data false).map (fun g => (g, c2Add1.2))) ++
  ((generateTrigrams "getName".data false).map (fun g => (g, c2Add2.2)))

def c2State : State :=
  { c2Add2.1 with trigramIdx := addPostings c2Add2.1.trigramIdx c2Postings }

/-- The same postings as rows of the relational `trigrams` table. -/
def c2Rows : List Sqlite.TRow :=
  ((generateTrigrams "getUser".data false).enum.map (fun p => (p.2, c2Add1.2, p.1))) ++
  ((generateTrigrams "getName".data false).enum.map (fun p => (p.2, c2Add2.2, p.1)))

/-- A store holding the single item `use`, indexed by its trigrams and
tokens — an item hit by the trigram stage, the token stage and the
abbreviation predicate at once. -/
def c3Add : State × Nat := addItem emptyState { path := "p1".data, name := "use".data }

def c3State : State :=
  { c3Add.1 with
      trigramIdx := addPostings c3Add.1.trigramIdx
        ((generateTrigrams "use".data false).map (fun g => (g, c3Add.2)))
      tokenIdx := addPostings c3Add.1.tokenIdx
        ((extractCamelCaseTokens "use".data).map (fun t => (t.map jsLower, c3Add.2))) }

def c3Item : StoredItem := { id := 1, path := "p1".data, name := "use".data }

/-- Two consecutive `addItem` calls with the same path. -/
def c7Add1 : State × Nat := addItem emptyState { path := "p".data, name := "a".data }

def c7Add2 : State × Nat := addItem c7Add1.1 { path := "p".data, name := "b".data }

/-- An id-reuse sequence: add, clear, add. -/
def c9Ops : List Op :=
  [.add { path := "a".data, name := "x".data }, .clearOp,
   .add { path := "b".data, name := "y".data }]

end Fixtures

/-!
## Helper lemmas: counted lookup on the in-memory inverted index
-/

namespace Index

theorem lookupCount_bump (sc : List (Nat × Nat)) (id j : Nat) :
    lookupCount (bump sc id) j =
      if j = id then some ((lookupCount sc id).getD 0 + 1) else lookupCount sc j := by
  induction sc with
  | nil =>
    simp only [bump, lookupCount]
    split_ifs <;> first | rfl | omega
  | cons e rest ih =>
    obtain ⟨k, v⟩ := e
    by_cases hk : k = id
    · subst hk
      have hB : bump ((k, v) :: rest) k = (k, v + 1) :: rest := by simp [bump]
      have hL : lookupCount ((k, v + 1) :: rest) j =
          if k = j then some (v + 1) else lookupCount rest j := rfl
      have hR : lookupCount ((k, v) :: rest) j =
          if k = j then some v else lookupCount rest j := rfl
      have hR2 : lookupCount ((k, v) :: rest) k =
          if k = k then some v else lookupCount rest k := rfl
      rw [hB, hL, hR, hR2, if_pos rfl]
      split_ifs <;> first | rfl | omega
    · have hB : bump ((k, v) :: rest) id = (k, v) :: bump rest id := by simp [bump, hk]
      have hL : lookupCount ((k, v) :: bump rest id) j =
          if k = j then some v else lookupCount (bump rest id) j := rfl
      have hR : lookupCount ((k, v) :: rest) j =
          if k = j then some v else lookupCount rest j := rfl
      have hR2 : lookupCount ((k, v) :: rest) id =
          if k = id then some v else lookupCount rest id := rfl
      rw [hB, hL, hR, hR2, if_neg hk, ih]
      split_ifs <;> first | rfl | omega

theorem lookupCount_foldl_bump (ids : List Nat) (sc : List (Nat × Nat)) (j : Nat) :
    lookupCount (ids.foldl bump sc) j =
      if ids.count j = 0 then lookupCount sc j
      else some ((lookupCount sc j).getD 0 + ids.count j) := by
  induction ids generalizing sc with
  | nil => simp
  | cons a rest ih =>
    rw [List.foldl_cons, ih, List.count_cons]
    by_cases ha : j = a
    · subst ha
      simp only [lookupCount_bump, if_pos rfl]
      by_cases h0 : rest.count j = 0 <;> (simp [h0]; try omega)
    · have : ¬(a = j) := fun h => ha h.symm
      simp [lookupCount_bump, ha, this]

theorem lookupCount_searchIndex (idx : Idx) (ts : List Str) (j : Nat) :
    lookupCount (searchIndex idx ts) j =
      if ((ts.map (fun tg => (lookupIds idx tg).count j)).sum = 0) then none
      else some ((ts.map (fun tg => (lookupIds idx tg).count j)).sum) := by
  have main : ∀ (ts : List Str) (sc : List (Nat × Nat)),
      lookupCount (ts.foldl (fun sc tg => (lookupIds idx tg).foldl bump sc) sc) j =
        if ((ts.map (fun tg => (lookupIds idx tg).count j)).sum = 0) then lookupCount sc j
        else some ((lookupCount sc j).getD 0 +
          (ts.map (fun tg => (lookupIds idx tg).count j)).sum) := by
    intro ts
    induction ts with
    | nil => simp
    | cons a rest ih =>
      intro sc
      rw [List.foldl_cons, ih, lookupCount_foldl_bump]
      by_cases h0 : (lookupIds idx a).count j = 0
      · simp [h0]
      · by_cases h1 : (rest.map (fun tg => (lookupIds idx tg).count j)).sum = 0 <;>
          (simp [h0, h1]; try omega)
  rw [searchIndex, main ts []]
  simp [lookupCount]

theorem lookupIds_eq_nil_or_mem (idx : Idx) (tg : Str) :
    lookupIds idx tg = [] ∨ (tg, lookupIds idx tg) ∈ idx := by
  induction idx with
  | nil => simp [lookupIds]
  | cons e rest ih =>
    obtain ⟨k, ids⟩ := e
    by_cases hk : k = tg
    · subst hk
      simp [lookupIds]
    · rcases ih with h | h
      · exact Or.inl (by simp [lookupIds, hk, h])
      · right
        simp only [lookupIds, hk, if_neg hk]
        exact List.mem_cons_of_mem _ h

theorem nodup_lookupIds {idx : Idx} (hwf : WF idx) (tg : Str) :
    (lookupIds idx tg).Nodup := by
  rcases lookupIds_eq_nil_or_mem idx tg with h | h
  · simp [h]
  · exact hwf _ h

theorem count_eq_countP_of_wf {idx : Idx} (hwf : WF idx) (ts : List Str) (j : Nat) :
    (ts.map (fun tg => (lookupIds idx tg).count j)).sum =
      ts.countP (fun tg => decide (j ∈ lookupIds idx tg)) := by
  induction ts with
  | nil => simp
  | cons a rest ih =>
    rw [List.map_cons, List.sum_cons, ih, List.countP_cons]
    by_cases hm : j ∈ lookupIds idx a
    · rw [List.count_eq_one_of_mem (nodup_lookupIds hwf a) hm]
      simp [hm, Nat.add_comm]
    · rw [List.count_eq_zero_of_not_mem hm]
      simp [hm]

theorem mem_lookupIds_addPosting (idx : Idx) (tg tg' : Str) (id j : Nat) :
    j ∈ lookupIds (addPosting idx tg id) tg' ↔
      j ∈ lookupIds idx tg' ∨ (tg' = tg ∧ j = id) := by
  induction idx with
  | nil =>
    by_cases h : tg = tg'
    · subst h
      simp [addPosting, lookupIds]
    · have h2 : ¬(tg' = tg) := fun hh => h hh.symm
      simp [addPosting, lookupIds, h, h2]
  | cons e rest ih =>
    obtain ⟨k, ids⟩ := e
    by_cases hk : k = tg <;> by_cases h' : k = tg'
    · subst h'
      subst hk
      by_cases hmem : id ∈ ids
      · simp only [addPosting, if_pos rfl, lookupIds, if_pos hmem, true_and]
        constructor
        · exact Or.inl
        · rintro (h | rfl)
          · exact h
          · exact hmem
      · simp [addPosting, lookupIds, hmem, List.mem_append]
    · subst hk
      have h2 : ¬(tg' = k) := fun hh => h' hh.symm
      simp [addPosting, lookupIds, h', h2]
    · subst h'
      simp only [addPosting, if_neg hk, lookupIds, if_pos rfl]
      constructor
      · exact Or.inl
      · rintro (h | ⟨h1, -⟩)
        · exact h
        · exact absurd h1 hk
    · simp only [addPosting, if_neg hk, lookupIds, if_neg h']
      exact ih

theorem mem_lookupIds_addPostings (idx : Idx) (ps : List (Str × Nat)) (tg : Str) (j : Nat) :
    j ∈ lookupIds (addPostings idx ps) tg ↔
      j ∈ lookupIds idx tg ∨ (tg, j) ∈ ps := by
  induction ps generalizing idx with
  | nil => simp [addPostings]
  | cons p rest ih =>
    obtain ⟨ptg, pid⟩ := p
    rw [addPostings, List.foldl_cons]
    rw [show (List.foldl (fun a p => addPosting a p.1 p.2) (addPosting idx ptg pid) rest) =
      addPostings (addPosting idx ptg pid) rest from rfl]
    rw [ih, mem_lookupIds_addPosting]
    simp only [List.mem_cons, Prod.mk.injEq]
    tauto

theorem not_mem_lookupIds_removeItem (idx : Idx) (id : Nat) (tg : Str) :
    id ∉ lookupIds (removeItem idx id) tg := by
  intro hmem
  rcases lookupIds_eq_nil_or_mem (removeItem idx id) tg with h | h
  · rw [h] at hmem
    exact absurd hmem (List.not_mem_nil id)
  · have : (tg, lookupIds (removeItem idx id) tg) ∈
        (idx.map (fun e => (e.1, e.2.filter (fun j => j ≠ id)))) := by
      have := h
      rw [removeItem] at this
      exact List.mem_of_mem_filter this
    rcases List.mem_map.mp this with ⟨e, -, he⟩
    have : lookupIds (removeItem idx id) tg = e.2.filter (fun j => j ≠ id) :=
      congrArg Prod.snd he.symm
    rw [this] at hmem
    have := List.of_mem_filter hmem
    simp at this

theorem wf_addPosting {idx : Idx} (hwf : WF idx) (tg : Str) (id : Nat) :
    WF (addPosting idx tg id) := by
  induction idx with
  | nil =>
    intro e he
    simp only [addPosting, List.mem_singleton] at he
    subst he
    simp
  | cons f rest ih =>
    obtain ⟨k, ids⟩ := f
    have hids : ids.Nodup := hwf _ (List.mem_cons_self _ _)
    have hrest : WF rest := fun e he => hwf _ (List.mem_cons_of_mem _ he)
    by_cases hk : k = tg
    · intro e he
      simp only [addPosting, if_pos hk, List.mem_cons] at he
      rcases he with rfl | he
      · by_cases hmem : id ∈ ids
        · simpa [hmem] using hids
        · simpa [hmem] using hids.append (by simp) (by simp [hmem])
      · exact hrest _ he
    · intro e he
      simp only [addPosting, if_neg hk, List.mem_cons] at he
      rcases he with rfl | he
      · exact hids
      · exact ih hrest _ he

end Index

/-!
## Helper lemmas: operation sequences and id assignment
-/

namespace InMemory

theorem updateItem_nextId (st : State) (id : Nat) (p : Patch) (st' : State)
    (h : updateItem st id p = .ok st') : st'.nextId = st.nextId := by
  unfold updateItem at h
  split at h
  · cases h
  · simp only [Except.ok.injEq] at h
    split at h
    · split at h
      · rw [← h]
      · rw [← h]
    · rw [← h]

theorem exec_nextId_le (st : State) (op : Op) (h : op ≠ Op.clearOp) :
    st.nextId ≤ (exec st op).1.nextId := by
  cases op with
  | add item => simp [exec, addItem]
  | update id p =>
    simp only [exec]
    cases hup : updateItem st id p with
    | ok st' => simp [updateItem_nextId st id p st' hup]
    | error e => exact Nat.le_refl _
  | delete id =>
    simp only [exec]
    unfold deleteItem
    cases hg : mapGet st.itemsById id <;> simp
  | clearOp => exact absurd rfl h
  | addTri ps => simp [exec]
  | removeTri id => simp [exec]
  | addTok ps => simp [exec]
  | removeTok id => simp [exec]

theorem exec_ret (st : State) (op : Op) (i0 : Nat) (h2 : (exec st op).2 = some i0) :
    i0 = st.nextId ∧ st.nextId < (exec st op).1.nextId := by
  cases op with
  | add item =>
    simp only [exec, addItem, Option.some.injEq] at h2
    simp [exec, addItem, ← h2]
  | update i p =>
    simp only [exec] at h2
    cases hup : updateItem st i p with
    | ok st' => rw [hup] at h2; simp at h2
    | error e => rw [hup] at h2; simp at h2
  | delete i => simp [exec] at h2
  | clearOp => simp [exec] at h2
  | addTri ps => simp [exec] at h2
  | removeTri i => simp [exec] at h2
  | addTok ps => simp [exec] at h2
  | removeTok i => simp [exec] at h2

theorem run_lb (ops : List Op) (st : State) (h : ∀ o ∈ ops, o ≠ Op.clearOp) :
    ∀ x ∈ (run st ops).2, st.nextId ≤ x := by
  induction ops generalizing st with
  | nil => simp [run]
  | cons op ops ih =>
    intro x hx
    simp only [run, List.mem_append] at hx
    rcases hx with hx | hx
    · cases hr : (exec st op).2 with
      | none => rw [hr] at hx; simp at hx
      | some i0 =>
        rw [hr] at hx
        simp only [Option.toList_some, List.mem_singleton] at hx
        subst hx
        exact Nat.le_of_eq (exec_ret st op _ hr).1.symm
    · have h1 := ih (exec st op).1 (fun o ho => h o (List.mem_cons_of_mem _ ho)) x hx
      exact Nat.le_trans (exec_nextId_le st op (h op (List.mem_cons_self _ _))) h1

theorem run_nodup (ops : List Op) (st : State) (h : ∀ o ∈ ops, o ≠ Op.clearOp) :
    ((run st ops).2).Nodup := by
  induction ops generalizing st with
  | nil => simp [run]
  | cons op ops ih =>
    have hrest := ih (exec st op).1 (fun o ho => h o (List.mem_cons_of_mem _ ho))
    simp only [run]
    cases hr : (exec st op).2 with
    | none => simpa using hrest
    | some id =>
      simp only [Option.toList_some, List.singleton_append, List.nodup_cons]
      refine ⟨?_, hrest⟩
      intro hmem
      have hlb := run_lb ops (exec st op).1
        (fun o ho => h o (List.mem_cons_of_mem _ ho)) id hmem
      have := (exec_ret st op id hr)
      omega

end InMemory

/-!
## Claims C2, C7, C8, C9, C10: the storage layer
-/

/-- C2, counterexample.  The in-memory `searchTrigrams` iterates over
the query list with multiplicity, so a duplicated trigram inflates the
count to 2 where the number of distinct matching trigrams is 1; and
the relational `searchTrigrams` filters with `HAVING match_count =
|ts|`, so in the spec's own scenario `getName` (which matches only
`"get"` of `["get","use"]`) is absent instead of mapped to 1. -/
theorem c2_counterexample :
    Index.lookupCount (Index.searchIndex (Index.addPostings [] [("get".data, 1)])
        ["get".data, "get".data]) 1 = some 2 ∧
    (Sqlite.dedupS ["get".data, "get".data]).length = 1 ∧
    Index.lookupCount (Sqlite.searchTrigrams Fixtures.c2Rows
        ["get".data, "use".data]) Fixtures.c2Add2.2 = none := by
  refine ⟨by decide, by decide, by decide⟩

/-- C2, amended.  For the in-memory store, `searchTrigrams ts` maps an
item to the number of entries of `ts` (counted with multiplicity) that
have a posting under the item, omitting the item when that number is
zero; for duplicate-free `ts` this is exactly the number of distinct
matching trigrams, and the spec's two-item scenario behaves as stated
on the in-memory store. -/
theorem c2_search_trigrams_count :
    (∀ (idx : Index.Idx) (ts : List Str) (j : Nat), Index.WF idx →
      Index.lookupCount (Index.searchIndex idx ts) j =
        if ts.countP (fun tg => decide (j ∈ Index.lookupIds idx tg)) = 0 then none
        else some (ts.countP (fun tg => decide (j ∈ Index.lookupIds idx tg)))) ∧
    Index.lookupCount (Index.searchIndex Fixtures.c2State.trigramIdx ["get".data])
      Fixtures.c2Add1.2 = some 1 ∧
    Index.lookupCount (Index.searchIndex Fixtures.c2State.trigramIdx ["get".data])
      Fixtures.c2Add2.2 = some 1 ∧
    Index.lookupCount (Index.searchIndex Fixtures.c2State.trigramIdx
      ["get".data, "use".data]) Fixtures.c2Add1.2 = some 2 ∧
    Index.lookupCount (Index.searchIndex Fixtures.c2State.trigramIdx
      ["get".data, "use".data]) Fixtures.c2Add2.2 = some 1 := by
  refine ⟨?_, by decide, by decide, by decide, by decide⟩
  intro idx ts j hwf
  rw [Index.lookupCount_searchIndex, Index.count_eq_countP_of_wf hwf]

/-- C2, witness for the amended theorem. -/
theorem c2_search_trigrams_count_witness :
    Index.lookupCount (Index.searchIndex (Index.addPostings [] [("get".data, 1)])
      ["get".data]) 1 = some 1 :=
  (c2_search_trigrams_count.1 (Index.addPostings [] [("get".data, 1)])
    ["get".data] 1 (by decide)).trans (by decide)

/-- C8: after adding item `i`'s postings for every trigram of `t`,
`search_trigrams([tg])` maps `i` to a count of at least 1 for every
trigram `tg` of `t`; and after `remove_trigrams(i)` the lookup maps
`i` to nothing for every trigram. -/
theorem c8_add_remove_trigrams :
    (∀ (idx : Index.Idx) (i : Nat) (t : Str) (cs : Bool) (tg : Str),
      tg ∈ TrigramUtils.generateTrigrams t cs →
      ∃ k, 1 ≤ k ∧
        Index.lookupCount (Index.searchIndex
          (Index.addPostings idx ((TrigramUtils.generateTrigrams t cs).map (fun g => (g, i))))
          [tg]) i = some k) ∧
    (∀ (idx : Index.Idx) (i : Nat) (tg : Str),
      Index.lookupCount (Index.searchIndex (Index.removeItem idx i) [tg]) i = none) := by
  constructor
  · intro idx i t cs tg htg
    have hmem : i ∈ Index.lookupIds
        (Index.addPostings idx ((TrigramUtils.generateTrigrams t cs).map (fun g => (g, i)))) tg :=
      (Index.mem_lookupIds_addPostings _ _ _ _).mpr
        (Or.inr (List.mem_map.mpr ⟨tg, htg, rfl⟩))
    have hc : 0 < (Index.lookupIds
        (Index.addPostings idx ((TrigramUtils.generateTrigrams t cs).map (fun g => (g, i)))) tg).count i :=
      List.count_pos_iff.mpr hmem
    rw [Index.lookupCount_searchIndex]
    simp only [List.map_cons, List.map_nil, List.sum_cons, List.sum_nil, Nat.add_zero]
    rw [if_neg (by omega)]
    exact ⟨_, by omega, rfl⟩
  · intro idx i tg
    have hnm := Index.not_mem_lookupIds_removeItem idx i tg
    have hz : (Index.lookupIds (Index.removeItem idx i) tg).count i = 0 :=
      List.count_eq_zero_of_not_mem hnm
    rw [Index.lookupCount_searchIndex]
    simp [hz]

/-- C8, witness. -/
theorem c8_add_remove_trigrams_witness :
    ∃ k, 1 ≤ k ∧
      Index.lookupCount (Index.searchIndex
        (Index.addPostings [] ((TrigramUtils.generateTrigrams "getUser".data false).map
          (fun g => (g, 7)))) ["get".data]) 7 = some k :=
  c8_add_remove_trigrams.1 [] 7 "getUser".data false "get".data (by decide)

/-- C7, counterexample.  The in-memory `addItem` performs no duplicate
check: a second `addItem` with an already present path succeeds,
returns the fresh id 2, and leaves two items with the same path in the
store. -/
theorem c7_counterexample :
    Fixtures.c7Add2.2 = 2 ∧
    Fixtures.c7Add2.1.itemsById.map (fun e => e.2.path) = ["p".data, "p".data] ∧
    ¬ (Fixtures.c7Add2.1.itemsById.map (fun e => e.2.path)).Nodup := by
  refine ⟨by decide, by decide, by decide⟩

/-- C7, amended: the persistent store's `addItem` fails on a duplicate
path (UNIQUE column) without inserting, and on a fresh path inserts
under the next AUTOINCREMENT id, preserving path uniqueness; the
in-memory `addItem` always succeeds and returns the next counter
value, even for a duplicate path. -/
theorem c7_add_item :
    (∀ (st : Sqlite.State) (item : InMemory.Item),
      (∃ r ∈ st.items, r.path = item.path) →
      Sqlite.addItem st item = .error .duplicatePath) ∧
    (∀ (st : Sqlite.State) (item : InMemory.Item),
      (∀ r ∈ st.items, r.path ≠ item.path) →
      Sqlite.addItem st item =
        .ok ({ items := st.items ++ [{ id := st.seq, path := item.path, name := item.name }],
               seq := st.seq + 1 }, st.seq)) ∧
    (∀ (st : Sqlite.State) (item : InMemory.Item),
      (∀ r ∈ st.items, r.path ≠ item.path) → (st.items.map (·.path)).Nodup →
      ((st.items ++ [{ id := st.seq, path := item.path, name := item.name : Sqlite.Row }]).map
        (·.path)).Nodup) ∧
    (∀ (st : InMemory.State) (item : InMemory.Item),
      (InMemory.addItem st item).2 = st.nextId) := by
  refine ⟨?_, ?_, ?_, fun st item => rfl⟩
  · intro st item ⟨r, hr, hp⟩
    have : st.items.any (fun r => r.path = item.path) = true :=
      List.any_eq_true.mpr ⟨r, hr, by simp [hp]⟩
    simp [Sqlite.addItem, this]
  · intro st item h
    have : st.items.any (fun r => r.path = item.path) = false := by
      rw [List.any_eq_false]
      intro r hr
      simp [h r hr]
    simp [Sqlite.addItem, this]
  · intro st item h hnd
    rw [List.map_append, List.map_singleton]
    apply List.Nodup.append hnd (List.nodup_singleton _)
    intro p hp hp2
    simp only [List.mem_singleton] at hp2
    subst hp2
    rcases List.mem_map.mp hp with ⟨r, hr, hrp⟩
    exact h r hr hrp

/-- C7, witness for the amended theorem. -/
theorem c7_add_item_witness :
    Sqlite.addItem { items := [{ id := 1, path := "p".data, name := "a".data }], seq := 2 }
      { path := "p".data, name := "b".data } = .error .duplicatePath :=
  c7_add_item.1 _ _ ⟨{ id := 1, path := "p".data, name := "a".data }, by decide, rfl⟩

/-- C9, counterexample.  `clear` resets the in-memory id counter to 1,
so the sequence add, clear, add returns the id 1 twice. -/
theorem c9_counterexample :
    (InMemory.run InMemory.emptyState Fixtures.c9Ops).2 = [1, 1] ∧
    ¬ ([1, 1] : List Nat).Nodup := by
  refine ⟨by decide, by decide⟩

/-- C9, amended: for every sequence of store operations not containing
`clear` (adds, updates, deletes, posting updates), the ids returned by
the `addItem` calls are pairwise distinct — never reused; `clear`
resets the counter and allows reuse. -/
theorem c9_ids_not_reused :
    ∀ (st : InMemory.State) (ops : List InMemory.Op),
      (∀ o ∈ ops, o ≠ InMemory.Op.clearOp) →
      ((InMemory.run st ops).2).Nodup :=
  fun st ops h => InMemory.run_nodup ops st h

/-- C9, witness for the amended theorem. -/
theorem c9_ids_not_reused_witness :
    ((InMemory.run InMemory.emptyState
      [InMemory.Op.add { path := "a".data, name := "x".data },
       InMemory.Op.delete 1,
       InMemory.Op.add { path := "b".data, name := "y".data }]).2).Nodup :=
  c9_ids_not_reused InMemory.emptyState _ (by decide)

/-- C10: deleting an absent id is a silent no-op on the entire state
(items, both posting indexes and hence the derived statistics), for
both the in-memory and the relational store, while the in-memory
`updateItem` fails on an absent id. -/
theorem c10_delete_absent :
    (∀ (st : InMemory.State) (id : Nat), InMemory.getItem st id = none →
      InMemory.deleteItem st id = st ∧
      InMemory.getStats (InMemory.deleteItem st id) = InMemory.getStats st ∧
      ∀ p, InMemory.updateItem st id p = .error .notFound) ∧
    (∀ (st : Sqlite.State) (id : Nat), Sqlite.getItem st id = none →
      Sqlite.deleteItem st id = st) := by
  constructor
  · intro st id h
    have hh : InMemory.mapGet st.itemsById id = none := h
    have hd : InMemory.deleteItem st id = st := by
      unfold InMemory.deleteItem
      rw [hh]
    exact ⟨hd, by rw [hd], fun p => by unfold InMemory.updateItem; rw [hh]⟩
  · intro st id h
    have hall : ∀ r ∈ st.items, ¬(r.id = id) := by
      intro r hr
      have := List.find?_eq_none.mp h r hr
      simpa using this
    have hfil : st.items.filter (fun r => r.id ≠ id) = st.items := by
      rw [List.filter_eq_self]
      intro r hr
      simpa using hall r hr
    unfold Sqlite.deleteItem
    rw [hfil]

/-- C10, witness. -/
theorem c10_delete_absent_witness :
    InMemory.deleteItem Fixtures.c2State 99 = Fixtures.c2State ∧
    Sqlite.deleteItem { items := [], seq := 1 } 99 = { items := [], seq := 1 } :=
  ⟨((c10_delete_absent.1 Fixtures.c2State 99 (by decide)).1),
   c10_delete_absent.2 { items := [], seq := 1 } 99 (by decide)⟩

/-!
## Claim C4: trigram generation
-/

namespace TrigramUtils

theorem mem_addTri (acc : List Str) (w x : Str) :
    x ∈ addTri acc w ↔ x ∈ acc ∨ (x = w ∧ hasAlnum w = true) := by
  unfold addTri
  by_cases ha : hasAlnum w = true
  · rw [if_pos ha]
    by_cases hm : w ∈ acc
    · rw [if_pos hm]
      constructor
      · exact Or.inl
      · rintro (h | ⟨rfl, -⟩)
        · exact h
        · exact hm
    · rw [if_neg hm]
      simp [List.mem_append, ha]
  · rw [if_neg ha]
    simp [ha]

theorem mem_foldl_addTri (T : Str) (l : List Nat) (acc : List Str) (x : Str) :
    x ∈ l.foldl (fun a i => addTri a (windowAt T i)) acc ↔
      x ∈ acc ∨ ∃ i ∈ l, x = windowAt T i ∧ hasAlnum x = true := by
  induction l generalizing acc with
  | nil => simp
  | cons a rest ih =>
    rw [List.foldl_cons, ih, mem_addTri]
    constructor
    · rintro ((h | ⟨rfl, hA⟩) | ⟨i, hi, rfl, hA⟩)
      · exact Or.inl h
      · exact Or.inr ⟨a, List.mem_cons_self _ _, rfl, hA⟩
      · exact Or.inr ⟨i, List.mem_cons_of_mem _ hi, rfl, hA⟩
    · rintro (h | ⟨i, hi, rfl, hA⟩)
      · exact Or.inl (Or.inl h)
      · rcases List.mem_cons.mp hi with rfl | hi
        · exact Or.inl (Or.inr ⟨rfl, hA⟩)
        · exact Or.inr ⟨i, hi, rfl, hA⟩

end TrigramUtils

/-- C4: a trigram is in `generateTrigrams text cs` iff the text has at
least 3 code units, the trigram contains an alphanumeric unit, and it
is some 3-unit window `T[i..i+3]` (`i + 3 ≤ len T`) of the text
case-folded exactly when the case-sensitivity flag is off; and the
spec's concrete examples hold. -/
theorem c4_generate_trigrams :
    (∀ (text : Str) (cs : Bool) (tg : Str),
      tg ∈ TrigramUtils.generateTrigrams text cs ↔
        3 ≤ text.length ∧ TrigramUtils.hasAlnum tg = true ∧
        ∃ i, i + 3 ≤ (if cs then text else text.map jsLower).length ∧
          tg = TrigramUtils.windowAt (if cs then text else text.map jsLower) i) ∧
    TrigramUtils.generateTrigrams "search".data false =
      ["sea".data, "ear".data, "arc".data, "rch".data] ∧
    "Sea".data ∈ TrigramUtils.generateTrigrams "Search".data true ∧
    "sea".data ∉ TrigramUtils.generateTrigrams "Search".data true := by
  refine ⟨?_, by decide, by decide, by decide⟩
  intro text cs tg
  have hTlen : (if cs then text else text.map jsLower).length = text.length := by
    cases cs <;> simp
  unfold TrigramUtils.generateTrigrams
  by_cases hlen : text.length < 3
  · rw [if_pos hlen]
    simp only [List.not_mem_nil, false_iff]
    rintro ⟨h3, -⟩
    omega
  · rw [if_neg hlen]
    simp only [TrigramUtils.mem_foldl_addTri, List.not_mem_nil, false_or, List.mem_range]
    constructor
    · rintro ⟨i, hi, rfl, hA⟩
      exact ⟨by omega, hA, i, by omega, rfl⟩
    · rintro ⟨-, hA, i, hi, rfl⟩
      rw [hTlen] at hi
      exact ⟨i, by omega, rfl, hA⟩

/-!
## Claims C1 and C6: the scoring ladder
-/

namespace TrigramUtils

theorem score_exact (q t : Str) (cs : Bool)
    (h : (if cs then t else t.map jsLower) = (if cs then q else q.map jsLower)) :
    calculateMatchScore q t cs = 1000 := by
  unfold calculateMatchScore
  rw [if_pos h]

theorem score_starts (q t : Str) (cs : Bool)
    (h1 : (if cs then t else t.map jsLower) ≠ (if cs then q else q.map jsLower))
    (h2 : startsWithL (if cs then t else t.map jsLower)
      (if cs then q else q.map jsLower) = true) :
    calculateMatchScore q t cs = 900 := by
  unfold calculateMatchScore
  rw [if_neg h1, if_pos h2]

theorem score_contains (q t : Str) (cs : Bool)
    (h1 : (if cs then t else t.map jsLower) ≠ (if cs then q else q.map jsLower))
    (h2 : startsWithL (if cs then t else t.map jsLower)
      (if cs then q else q.map jsLower) = false)
    (h3 : containsL (if cs then t else t.map jsLower)
      (if cs then q else q.map jsLower) = true) :
    calculateMatchScore q t cs = 800 := by
  unfold calculateMatchScore
  rw [if_neg h1, if_neg (by simp [h2]), if_pos h3]

theorem score_abbrev (q t : Str) (cs : Bool)
    (h1 : (if cs then t else t.map jsLower) ≠ (if cs then q else q.map jsLower))
    (h2 : startsWithL (if cs then t else t.map jsLower)
      (if cs then q else q.map jsLower) = false)
    (h3 : containsL (if cs then t else t.map jsLower)
      (if cs then q else q.map jsLower) = false)
    (h4 : matchesAbbreviation q t = true) :
    calculateMatchScore q t cs = 700 := by
  unfold calculateMatchScore
  rw [if_neg h1, if_neg (by simp [h2]), if_neg (by simp [h3]), if_pos h4]

theorem score_fuzzy (q t : Str) (cs : Bool)
    (h1 : (if cs then t else t.map jsLower) ≠ (if cs then q else q.map jsLower))
    (h2 : startsWithL (if cs then t else t.map jsLower)
      (if cs then q else q.map jsLower) = false)
    (h3 : containsL (if cs then t else t.map jsLower)
      (if cs then q else q.map jsLower) = false)
    (h4 : matchesAbbreviation q t = false) :
    calculateMatchScore q t cs =
      (if ((fuzzyLoop (if cs then t else t.map jsLower)
          (if cs then q else q.map jsLower) none true 0).2.isEmpty = false) then 0
       else max 0 ((fuzzyLoop (if cs then t else t.map jsLower)
          (if cs then q else q.map jsLower) none true 0).1 -
          5 * (((if cs then t else t.map jsLower).length : Int) -
            ((if cs then q else q.map jsLower).length : Int)).natAbs)) := by
  unfold calculateMatchScore
  rw [if_neg h1, if_neg (by simp [h2]), if_neg (by simp [h3]), if_neg (by simp [h4])]
  rcases hE : (fuzzyLoop (if cs then t else t.map jsLower)
      (if cs then q else q.map jsLower) none true 0).2.isEmpty with _ | _
  · simp [hE]
  · simp [hE]

theorem score_nonneg (q t : Str) (cs : Bool) : 0 ≤ calculateMatchScore q t cs := by
  unfold calculateMatchScore
  dsimp only
  split_ifs <;> omega

end TrigramUtils

/-- C1, counterexample.  The claim's fuzzy walk awards +50 "per
consecutive match", but the source initialises `lastMatchIdx = -1`, so
the `lastMatchIdx === i - 1` test is already true at `i = 0` and a
match at text position 0 gets +50 without any preceding match: at
query `ab` and candidate `axb` (which reaches the fuzzy branch) the
code scores 270 where the claim's arithmetic gives 220. -/
theorem c1_counterexample :
    TrigramUtils.calculateMatchScore "ab".data "axb".data false = 270 ∧
    SpecModel.specLadderScore "ab".data "axb".data false = 220 ∧
    TrigramUtils.calculateMatchScore "ab".data "axb".data false ≠
      SpecModel.specLadderScore "ab".data "axb".data false :=
  ⟨by decide, by decide, by decide⟩

/-- C1, amended: `score` follows the strict ladder — 1000 on
(case-folded iff the flag is off) equality, 900 on a leading match,
800 on containment, 700 on the abbreviation predicate, and otherwise
the fuzzy-walk value (0 if the walk leaves query characters unmatched,
else the accumulated 100/+50/+25 awards minus 5 per unit of length
difference, clamped at ≥ 0) — where the fuzzy walk's +50 bonus also
applies to a match at text position 0, because `lastMatchIdx` starts
at -1; the spec's four examples hold as stated. -/
theorem c1_score_ladder :
    (∀ (q t : Str) (cs : Bool),
      (if cs then t else t.map jsLower) = (if cs then q else q.map jsLower) →
      TrigramUtils.calculateMatchScore q t cs = 1000) ∧
    (∀ (q t : Str) (cs : Bool),
      (if cs then t else t.map jsLower) ≠ (if cs then q else q.map jsLower) →
      startsWithL (if cs then t else t.map jsLower) (if cs then q else q.map jsLower) = true →
      TrigramUtils.calculateMatchScore q t cs = 900) ∧
    (∀ (q t : Str) (cs : Bool),
      (if cs then t else t.map jsLower) ≠ (if cs then q else q.map jsLower) →
      startsWithL (if cs then t else t.map jsLower) (if cs then q else q.map jsLower) = false →
      containsL (if cs then t else t.map jsLower) (if cs then q else q.map jsLower) = true →
      TrigramUtils.calculateMatchScore q t cs = 800) ∧
    (∀ (q t : Str) (cs : Bool),
      (if cs then t else t.map jsLower) ≠ (if cs then q else q.map jsLower) →
      startsWithL (if cs then t else t.map jsLower) (if cs then q else q.map jsLower) = false →
      containsL (if cs then t else t.map jsLower) (if cs then q else q.map jsLower) = false →
      TrigramUtils.matchesAbbreviation q t = true →
      TrigramUtils.calculateMatchScore q t cs = 700) ∧
    (∀ (q t : Str) (cs : Bool),
      (if cs then t else t.map jsLower) ≠ (if cs then q else q.map jsLower) →
      startsWithL (if cs then t else t.map jsLower) (if cs then q else q.map jsLower) = false →
      containsL (if cs then t else t.map jsLower) (if cs then q else q.map jsLower) = false →
      TrigramUtils.matchesAbbreviation q t = false →
      TrigramUtils.calculateMatchScore q t cs =
        (if ((TrigramUtils.fuzzyLoop (if cs then t else t.map jsLower)
            (if cs then q else q.map jsLower) none true 0).2.isEmpty = false) then 0
         else max 0 ((TrigramUtils.fuzzyLoop (if cs then t else t.map jsLower)
            (if cs then q else q.map jsLower) none true 0).1 -
            5 * (((if cs then t else t.map jsLower).length : Int) -
              ((if cs then q else q.map jsLower).length : Int)).natAbs))) ∧
    TrigramUtils.calculateMatchScore "conf".data "config".data false = 900 ∧
    TrigramUtils.calculateMatchScore "fig".data "config".data false = 800 ∧
    TrigramUtils.calculateMatchScore "gun".data "getUserName".data false = 700 ∧
    TrigramUtils.calculateMatchScore "xyz".data "config".data false = 0 :=
  ⟨TrigramUtils.score_exact, TrigramUtils.score_starts, TrigramUtils.score_contains,
   TrigramUtils.score_abbrev, TrigramUtils.score_fuzzy,
   by decide, by decide, by decide, by decide⟩

/-- C1, witness. -/
theorem c1_score_ladder_witness :
    TrigramUtils.calculateMatchScore "config".data "config".data false = 1000 :=
  c1_score_ladder.1 "config".data "config".data false (by decide)

/-- C6, counterexample.  At query `aaaaaaaaa` and candidate
`a.a.a.a.a.a.a.a.a` every upper-ladder condition fails, the fuzzy walk
matches each query character at a word boundary (the position-0 match
additionally receiving the +50 `lastMatchIdx = -1` bonus), and the
resulting fuzzy-branch score 1135 exceeds the abbreviation score 700
(and even the exact score 1000) — the ladder is not monotone below
the contains rung. -/
theorem c6_counterexample :
    ("a.a.a.a.a.a.a.a.a".data.map jsLower ≠ "aaaaaaaaa".data.map jsLower) ∧
    startsWithL ("a.a.a.a.a.a.a.a.a".data.map jsLower)
      ("aaaaaaaaa".data.map jsLower) = false ∧
    containsL ("a.a.a.a.a.a.a.a.a".data.map jsLower)
      ("aaaaaaaaa".data.map jsLower) = false ∧
    TrigramUtils.matchesAbbreviation "aaaaaaaaa".data "a.a.a.a.a.a.a.a.a".data = false ∧
    TrigramUtils.calculateMatchScore "aaaaaaaaa".data "a.a.a.a.a.a.a.a.a".data false = 1135 ∧
    (700 : Int) < 1135 :=
  ⟨by decide, by decide, by decide, by decide, by decide, by decide⟩

/-- C6, amended: the four upper rungs are the constants 1000 > 900 >
800 > 700 (so every exact score exceeds every leading-match score,
which exceeds every containment score, which exceeds every
abbreviation score), the fuzzy branch returns 0 whenever some query
character goes unmatched, and every score is ≥ 0; but fuzzy-branch
scores are not bounded by the abbreviation score 700. -/
theorem c6_ladder_values :
    (∀ (q1 t1 : Str) (cs1 : Bool) (q2 t2 : Str) (cs2 : Bool),
      (if cs1 then t1 else t1.map jsLower) = (if cs1 then q1 else q1.map jsLower) →
      (if cs2 then t2 else t2.map jsLower) ≠ (if cs2 then q2 else q2.map jsLower) →
      startsWithL (if cs2 then t2 else t2.map jsLower)
        (if cs2 then q2 else q2.map jsLower) = true →
      TrigramUtils.calculateMatchScore q2 t2 cs2 <
        TrigramUtils.calculateMatchScore q1 t1 cs1) ∧
    (∀ (q1 t1 : Str) (cs1 : Bool) (q2 t2 : Str) (cs2 : Bool),
      (if cs1 then t1 else t1.map jsLower) ≠ (if cs1 then q1 else q1.map jsLower) →
      startsWithL (if cs1 then t1 else t1.map jsLower)
        (if cs1 then q1 else q1.map jsLower) = true →
      (if cs2 then t2 else t2.map jsLower) ≠ (if cs2 then q2 else q2.map jsLower) →
      startsWithL (if cs2 then t2 else t2.map jsLower)
        (if cs2 then q2 else q2.map jsLower) = false →
      containsL (if cs2 then t2 else t2.map jsLower)
        (if cs2 then q2 else q2.map jsLower) = true →
      TrigramUtils.calculateMatchScore q2 t2 cs2 <
        TrigramUtils.calculateMatchScore q1 t1 cs1) ∧
    (∀ (q1 t1 : Str) (cs1 : Bool) (q2 t2 : Str) (cs2 : Bool),
      (if cs1 then t1 else t1.map jsLower) ≠ (if cs1 then q1 else q1.map jsLower) →
      startsWithL (if cs1 then t1 else t1.map jsLower)
        (if cs1 then q1 else q1.map jsLower) = false →
      containsL (if cs1 then t1 else t1.map jsLower)
        (if cs1 then q1 else q1.map jsLower) = true →
      (if cs2 then t2 else t2.map jsLower) ≠ (if cs2 then q2 else q2.map jsLower) →
      startsWithL (if cs2 then t2 else t2.map jsLower)
        (if cs2 then q2 else q2.map jsLower) = false →
      containsL (if cs2 then t2 else t2.map jsLower)
        (if cs2 then q2 else q2.map jsLower) = false →
      TrigramUtils.matchesAbbreviation q2 t2 = true →
      TrigramUtils.calculateMatchScore q2 t2 cs2 <
        TrigramUtils.calculateMatchScore q1 t1 cs1) ∧
    (∀ (q t : Str) (cs : Bool),
      (if cs then t else t.map jsLower) ≠ (if cs then q else q.map jsLower) →
      startsWithL (if cs then t else t.map jsLower)
        (if cs then q else q.map jsLower) = false →
      containsL (if cs then t else t.map jsLower)
        (if cs then q else q.map jsLower) = false →
      TrigramUtils.matchesAbbreviation q t = false →
      (TrigramUtils.fuzzyLoop (if cs then t else t.map jsLower)
        (if cs then q else q.map jsLower) none true 0).2 ≠ [] →
      TrigramUtils.calculateMatchScore q t cs = 0) ∧
    (∀ (q t : Str) (cs : Bool), 0 ≤ TrigramUtils.calculateMatchScore q t cs) := by
  refine ⟨?_, ?_, ?_, ?_, TrigramUtils.score_nonneg⟩
  · intro q1 t1 cs1 q2 t2 cs2 h1 h2 h3
    rw [TrigramUtils.score_exact q1 t1 cs1 h1, TrigramUtils.score_starts q2 t2 cs2 h2 h3]
    omega
  · intro q1 t1 cs1 q2 t2 cs2 h1 h2 h3 h4 h5
    rw [TrigramUtils.score_starts q1 t1 cs1 h1 h2,
      TrigramUtils.score_contains q2 t2 cs2 h3 h4 h5]
    omega
  · intro q1 t1 cs1 q2 t2 cs2 h1 h2 h3 h4 h5 h6 h7
    rw [TrigramUtils.score_contains q1 t1 cs1 h1 h2 h3,
      TrigramUtils.score_abbrev q2 t2 cs2 h4 h5 h6 h7]
    omega
  · intro q t cs h1 h2 h3 h4 h5
    rw [TrigramUtils.score_fuzzy q t cs h1 h2 h3 h4]
    rw [if_pos (by simp [h5])]

/-- C6, witness for the amended theorem. -/
theorem c6_ladder_values_witness :
    TrigramUtils.calculateMatchScore "conf".data "config".data false <
      TrigramUtils.calculateMatchScore "config".data "config".data false :=
  c6_ladder_values.1 "config".data "config".data false "conf".data "config".data false
    (by decide) (by decide) (by decide)

/-!
## Claim C5: CamelCase token extraction

The two global regex replaces of `extractCamelCaseTokens` are shown
equivalent to the spec's one-pass break relation (`SpecModel.brk`).
-/

namespace TrigramUtils

theorem isUpperAZ_marker : isUpperAZ marker = false := by decide

theorem isLowerAZ_marker : isLowerAZ marker = false := by decide

theorem not_upper_of_lower {c : Char} (h : isLowerAZ c = true) : isUpperAZ c = false := by
  simp only [isLowerAZ, Bool.and_eq_true, decide_eq_true_eq] at h
  have h1 : ¬ c ≤ 'Z' := fun hz => absurd (le_trans h.1 hz) (by decide)
  simp [isUpperAZ, h1]

theorem rep2_marker_second (c : Char) (X : Str) :
    rep2 (c :: marker :: X) = c :: marker :: rep2 X := by
  cases X with
  | nil => rfl
  | cons x xs =>
    cases xs with
    | nil => simp [rep2, isUpperAZ_marker]
    | cons y ys => simp [rep2, isUpperAZ_marker]

theorem splitMarker_cons (c : Char) (W : Str) (hc : c ≠ marker) :
    splitMarker (c :: W) = consHead c (splitMarker W) := by
  simp [splitMarker, hc]

theorem splitMarker_cons_marker (c : Char) (W : Str) (hc : c ≠ marker) :
    splitMarker (c :: marker :: W) = [c] :: splitMarker W := by
  simp [splitMarker, hc, consHead]

theorem rep1_first (c : Char) (rest : Str) : ∃ w, rep1 (c :: rest) = c :: w := by
  cases rest with
  | nil => exact ⟨[], rfl⟩
  | cons d ds =>
    cases hb : (isLowerAZ c && isUpperAZ d) with
    | true => exact ⟨marker :: rep1 (d :: ds), by simp [rep1, hb]⟩
    | false => exact ⟨rep1 (d :: ds), by simp [rep1, hb]⟩

theorem splitMarker_rep_eq_spec : (s : Str) → marker ∉ s →
    splitMarker (rep2 (rep1 s)) = SpecModel.specSplitCC s
  | [], _ => rfl
  | [c], h => by
    have hc : c ≠ marker := fun he => h (by simp [he])
    show splitMarker (c :: []) = [[c]]
    rw [splitMarker_cons c [] hc]
    rfl
  | c1 :: c2 :: rest, h => by
    have hc1 : c1 ≠ marker := fun he => h (by simp [he])
    have hc2 : c2 ≠ marker := fun he => h (by simp [he])
    have hrest : marker ∉ c2 :: rest := fun he => h (List.mem_cons_of_mem _ he)
    have ih := splitMarker_rep_eq_spec (c2 :: rest) hrest
    cases hb1 : (isLowerAZ c1 && isUpperAZ c2) with
    | true =>
      have e1 : rep1 (c1 :: c2 :: rest) = c1 :: marker :: rep1 (c2 :: rest) := by
        simp [rep1, hb1]
      rw [e1, rep2_marker_second, splitMarker_cons_marker c1 _ hc1, ih]
      have hbrk : SpecModel.brk c1 c2 rest.head? = true := by
        simp [SpecModel.brk, hb1]
      simp [SpecModel.specSplitCC, hbrk]
    | false =>
      have e1 : rep1 (c1 :: c2 :: rest) = c1 :: rep1 (c2 :: rest) := by
        simp [rep1, hb1]
      rw [e1]
      cases rest with
      | nil =>
        have hbrk : SpecModel.brk c1 c2 none = false := by
          simp [SpecModel.brk, hb1]
        rw [show rep2 (c1 :: rep1 [c2]) = [c1, c2] from rfl,
          splitMarker_cons c1 _ hc1, splitMarker_cons c2 _ hc2]
        simp [SpecModel.specSplitCC, hbrk, consHead, splitMarker]
      | cons r1 rest' =>
        cases hb2 : (isLowerAZ c2 && isUpperAZ r1) with
        | true =>
          have e2 : rep1 (c2 :: r1 :: rest') = c2 :: marker :: rep1 (r1 :: rest') := by
            simp [rep1, hb2]
          have e3 : rep2 (c1 :: c2 :: marker :: rep1 (r1 :: rest')) =
              c1 :: rep2 (c2 :: marker :: rep1 (r1 :: rest')) := by
            simp [rep2, isLowerAZ_marker]
          rw [e2, e3, rep2_marker_second, splitMarker_cons c1 _ hc1,
            splitMarker_cons_marker c2 _ hc2]
          have ih' : ([c2] : Str) :: splitMarker (rep2 (rep1 (r1 :: rest'))) =
              SpecModel.specSplitCC (c2 :: r1 :: rest') := by
            rw [← ih, e2, rep2_marker_second, splitMarker_cons_marker c2 _ hc2]
          rw [ih']
          have hlo2 : isLowerAZ c2 = true := by
            cases hL : isLowerAZ c2 with
            | true => rfl
            | false => rw [hL] at hb2; simp at hb2
          have hup2 : isUpperAZ c2 = false := not_upper_of_lower hlo2
          have hbrk : SpecModel.brk c1 c2 (some r1) = false := by
            simp [SpecModel.brk, hb1, hup2]
          simp [SpecModel.specSplitCC, hbrk]
        | false =>
          obtain ⟨w, hw⟩ := rep1_first r1 rest'
          have e2 : rep1 (c2 :: r1 :: rest') = c2 :: r1 :: w := by
            simp [rep1, hb2, hw]
          rw [e2]
          cases hb3 : (isUpperAZ c1 && isUpperAZ c2 && isLowerAZ r1) with
          | true =>
            have e3 : rep2 (c1 :: c2 :: r1 :: w) = c1 :: marker :: rep2 (c2 :: r1 :: w) := by
              simp [rep2, hb3]
            rw [e3, splitMarker_cons_marker c1 _ hc1]
            have ih' : splitMarker (rep2 (c2 :: r1 :: w)) =
                SpecModel.specSplitCC (c2 :: r1 :: rest') := by
              rw [← ih, e2]
            rw [ih']
            have hbrk : SpecModel.brk c1 c2 (some r1) = true := by
              simp [SpecModel.brk, hb3]
            simp [SpecModel.specSplitCC, hbrk]
          | false =>
            have e3 : rep2 (c1 :: c2 :: r1 :: w) = c1 :: rep2 (c2 :: r1 :: w) := by
              simp [rep2, hb3]
            rw [e3, splitMarker_cons c1 _ hc1]
            have ih' : splitMarker (rep2 (c2 :: r1 :: w)) =
                SpecModel.specSplitCC (c2 :: r1 :: rest') := by
              rw [← ih, e2]
            rw [ih']
            have hbrk : SpecModel.brk c1 c2 (some r1) = false := by
              simp [SpecModel.brk, hb1, hb3]
            simp [SpecModel.specSplitCC, hbrk]

theorem splitRuns_ne_nil (s : Str) : splitRuns s ≠ [] := by
  induction s with
  | nil => simp [splitRuns]
  | cons a s ih =>
    show (if isSepCh a then [] :: splitRuns s else consHead a (splitRuns s)) ≠ []
    split_ifs
    · simp
    · cases hs : splitRuns s with
      | nil => simp [consHead]
      | cons t ts => simp [consHead]

theorem mem_splitRuns_subset : ∀ (s p : Str), p ∈ splitRuns s → ∀ c ∈ p, c ∈ s := by
  intro s
  induction s with
  | nil =>
    intro p hp c hc
    simp only [splitRuns, List.foldr_nil, List.mem_singleton] at hp
    subst hp
    exact absurd hc (List.not_mem_nil c)
  | cons a s ih =>
    intro p hp c hc
    have hp' : p ∈ (if isSepCh a then [] :: splitRuns s else consHead a (splitRuns s)) := hp
    by_cases hsep : isSepCh a = true
    · rw [if_pos hsep] at hp'
      rcases List.mem_cons.mp hp' with rfl | hp2
      · exact absurd hc (List.not_mem_nil c)
      · exact List.mem_cons_of_mem _ (ih p hp2 c hc)
    · rw [if_neg hsep] at hp'
      cases hs : splitRuns s with
      | nil => exact absurd hs (splitRuns_ne_nil s)
      | cons t ts =>
        rw [hs] at hp'
        simp only [consHead, List.mem_cons] at hp'
        rcases hp' with rfl | hp2
        · rcases List.mem_cons.mp hc with rfl | hc2
          · exact List.mem_cons_self _ _
          · have ht : t ∈ splitRuns s := by rw [hs]; exact List.mem_cons_self _ _
            exact List.mem_cons_of_mem _ (ih t ht c hc2)
        · have hpm : p ∈ splitRuns s := by rw [hs]; exact List.mem_cons_of_mem _ hp2
          exact List.mem_cons_of_mem _ (ih p hpm c hc)

theorem flatMap_congr_mem (l : List Str) (f g : Str → List Str)
    (hfg : ∀ p ∈ l, f p = g p) : l.flatMap f = l.flatMap g := by
  induction l with
  | nil => rfl
  | cons a rest ih =>
    rw [List.flatMap_cons, List.flatMap_cons, hfg a (List.mem_cons_self _ _),
      ih (fun p hp => hfg p (List.mem_cons_of_mem _ hp))]

end TrigramUtils

/-- C5, counterexample.  The implementation splits tokens on the NUL
character it uses as its internal marker, so a text containing U+0000
is split there as well — the spec's two CamelCase rules alone produce
a different token list. -/
theorem c5_counterexample :
    TrigramUtils.extractCamelCaseTokens ['a', TrigramUtils.marker, 'B'] =
      [['a'], ['B']] ∧
    SpecModel.specTokens ['a', TrigramUtils.marker, 'B'] =
      [['a', TrigramUtils.marker, 'B']] ∧
    TrigramUtils.extractCamelCaseTokens ['a', TrigramUtils.marker, 'B'] ≠
      SpecModel.specTokens ['a', TrigramUtils.marker, 'B'] :=
  ⟨by decide, by decide, by decide⟩

/-- C5, amended: for every text not containing the NUL code unit
U+0000, token extraction splits the text at every single separator
(underscore, hyphen, whitespace — equivalent to splitting on separator
runs once empty parts are dropped), then splits each non-empty part
exactly at the spec's two CamelCase break rules (lowercase-uppercase,
and uppercase-run before uppercase-lowercase); a NUL in the input acts
as an additional break because the implementation reuses NUL as its
internal split marker.  The two examples of the spec hold. -/
theorem c5_extract_tokens :
    (∀ s : Str, TrigramUtils.marker ∉ s →
      TrigramUtils.extractCamelCaseTokens s = SpecModel.specTokens s) ∧
    TrigramUtils.extractCamelCaseTokens "HTTPSConnection".data =
      ["HTTPS".data, "Connection".data] ∧
    TrigramUtils.extractCamelCaseTokens "getUserName_withID".data =
      ["get".data, "User".data, "Name".data, "with".data, "ID".data] := by
  refine ⟨?_, by decide, by decide⟩
  intro s hm
  unfold TrigramUtils.extractCamelCaseTokens SpecModel.specTokens
  apply TrigramUtils.flatMap_congr_mem
  intro p hp
  have hmp : TrigramUtils.marker ∉ p := fun hc =>
    hm (TrigramUtils.mem_splitRuns_subset s p (List.mem_of_mem_filter hp) _ hc)
  unfold TrigramUtils.camelTokens
  rw [TrigramUtils.splitMarker_rep_eq_spec p hmp]

/-- C5, witness. -/
theorem c5_extract_tokens_witness :
    TrigramUtils.extractCamelCaseTokens "getUserName_withID".data =
      SpecModel.specTokens "getUserName_withID".data :=
  c5_extract_tokens.1 "getUserName_withID".data (by decide)

/-!
## Claim C3: the merged query pipeline
-/

namespace Service

theorem hasKey_append (a b : RMap) (id : Nat) (h : hasKey a id = true) :
    hasKey (a ++ b) id = true := by
  simp only [hasKey, List.any_append, Bool.or_eq_true]
  exact Or.inl h

theorem mapGet_append_left (a b : RMap) (id : Nat) (h : hasKey a id = true) :
    InMemory.mapGet (a ++ b) id = InMemory.mapGet a id := by
  induction a with
  | nil => simp [hasKey] at h
  | cons e a' ih =>
    obtain ⟨k, v⟩ := e
    by_cases hk : k = id
    · simp [InMemory.mapGet, hk]
    · have h' : hasKey a' id = true := by
        simp only [hasKey, List.any_cons, Bool.or_eq_true] at h
        rcases h with h | h
        · exact absurd (by simpa using h) hk
        · simpa [hasKey] using h
      simp [InMemory.mapGet, hk, ih h']

theorem mapGet_foldl_append {α : Type} (f : RMap → α → RMap)
    (hf : ∀ acc x, f acc x = acc ∨ ∃ e, f acc x = acc ++ [e]) :
    ∀ (l : List α) (acc : RMap) (id : Nat), hasKey acc id = true →
      InMemory.mapGet (List.foldl f acc l) id = InMemory.mapGet acc id := by
  intro l
  induction l with
  | nil => intro acc id _; rfl
  | cons x xs ih =>
    intro acc id h
    rw [List.foldl_cons]
    rcases hf acc x with he | ⟨e, he⟩
    · rw [he, ih acc id h]
    · rw [he, ih (acc ++ [e]) id (hasKey_append acc [e] id h),
        mapGet_append_left acc [e] id h]

theorem hasKey_foldl_append {α : Type} (f : RMap → α → RMap)
    (hf : ∀ acc x, f acc x = acc ∨ ∃ e, f acc x = acc ++ [e]) :
    ∀ (l : List α) (acc : RMap) (id : Nat), hasKey acc id = true →
      hasKey (List.foldl f acc l) id = true := by
  intro l
  induction l with
  | nil => intro acc id h; exact h
  | cons x xs ih =>
    intro acc id h
    rw [List.foldl_cons]
    rcases hf acc x with he | ⟨e, he⟩
    · rw [he]; exact ih acc id h
    · rw [he]; exact ih (acc ++ [e]) id (hasKey_append acc [e] id h)

theorem stage2_step_shape (st : InMemory.State) (cs : Bool) (pq : Str)
    (acc : RMap) (idc : Nat × Nat) :
    (if hasKey acc idc.1 then acc
     else
       match InMemory.getItem st idc.1 with
       | none => acc
       | some item =>
         let sc := TrigramUtils.calculateMatchScore pq item.name cs
         if 0 < sc then acc ++ [(idc.1, ⟨item, sc + 100⟩)] else acc) = acc ∨
    ∃ e, (if hasKey acc idc.1 then acc
     else
       match InMemory.getItem st idc.1 with
       | none => acc
       | some item =>
         let sc := TrigramUtils.calculateMatchScore pq item.name cs
         if 0 < sc then acc ++ [(idc.1, ⟨item, sc + 100⟩)] else acc) = acc ++ [e] := by
  by_cases h1 : hasKey acc idc.1 = true
  · rw [if_pos h1]
    exact Or.inl rfl
  · rw [if_neg h1]
    cases hg : InMemory.getItem st idc.1 with
    | none => exact Or.inl rfl
    | some item =>
      dsimp only
      split_ifs with h2
      · exact Or.inr ⟨_, rfl⟩
      · exact Or.inl rfl

theorem stage3_step_shape (pq : Str)
    (acc : RMap) (item : InMemory.StoredItem) :
    (if hasKey acc item.id then acc
     else if TrigramUtils.matchesAbbreviation pq item.name then
       acc ++ [(item.id, ⟨item, 600⟩)]
     else acc) = acc ∨
    ∃ e, (if hasKey acc item.id then acc
     else if TrigramUtils.matchesAbbreviation pq item.name then
       acc ++ [(item.id, ⟨item, 600⟩)]
     else acc) = acc ++ [e] := by
  split_ifs
  · exact Or.inl rfl
  · exact Or.inr ⟨_, rfl⟩
  · exact Or.inl rfl

theorem stage2_preserves (st : InMemory.State) (cs : Bool) (cc : Bool) (pq : Str)
    (r1 : RMap) (id : Nat) (h : hasKey r1 id = true) :
    InMemory.mapGet (stage2 st cs cc pq r1) id = InMemory.mapGet r1 id ∧
    hasKey (stage2 st cs cc pq r1) id = true := by
  unfold stage2
  by_cases hcc : cc = true
  · rw [if_pos hcc]
    dsimp only
    by_cases ht : (TrigramUtils.extractCamelCaseTokens pq).isEmpty = true
    · rw [if_pos ht]
      exact ⟨rfl, h⟩
    · rw [if_neg ht]
      exact ⟨mapGet_foldl_append _ (fun acc idc => stage2_step_shape st cs pq acc idc)
          _ r1 id h,
        hasKey_foldl_append _ (fun acc idc => stage2_step_shape st cs pq acc idc)
          _ r1 id h⟩
  · rw [if_neg hcc]
    exact ⟨rfl, h⟩

theorem stage3_preserves (st : InMemory.State) (cc : Bool) (pq : Str)
    (r2 : RMap) (id : Nat) (h : hasKey r2 id = true) :
    InMemory.mapGet (stage3 st cc pq r2) id = InMemory.mapGet r2 id := by
  unfold stage3
  by_cases hcc : cc = true
  · rw [if_pos hcc]
    exact mapGet_foldl_append _ (fun acc item => stage3_step_shape pq acc item)
      _ r2 id h
  · rw [if_neg hcc]

theorem mem_insertDesc (x z : SResult) (l : List SResult) :
    z ∈ insertDesc x l ↔ z = x ∨ z ∈ l := by
  induction l with
  | nil => simp [insertDesc]
  | cons y ys ih =>
    unfold insertDesc
    split_ifs with hc
    · simp
    · simp only [List.mem_cons, ih]
      tauto

theorem sorted_insertDesc (x : SResult) (l : List SResult)
    (h : List.Sorted (fun a b : SResult => b.score ≤ a.score) l) :
    List.Sorted (fun a b : SResult => b.score ≤ a.score) (insertDesc x l) := by
  induction l with
  | nil => simp [insertDesc]
  | cons y ys ih =>
    rw [List.sorted_cons] at h
    unfold insertDesc
    split_ifs with hc
    · rw [List.sorted_cons]
      refine ⟨?_, List.sorted_cons.mpr h⟩
      intro b hb
      rcases List.mem_cons.mp hb with rfl | hb
      · exact hc
      · exact le_trans (h.1 b hb) hc
    · rw [List.sorted_cons]
      refine ⟨?_, ih h.2⟩
      intro b hb
      rcases (mem_insertDesc x b ys).mp hb with rfl | hb
      · omega
      · exact h.1 b hb

theorem sorted_sortDesc (l : List SResult) :
    List.Sorted (fun a b : SResult => b.score ≤ a.score) (sortDesc l) := by
  induction l with
  | nil => simp [sortDesc]
  | cons x xs ih => exact sorted_insertDesc x (sortDesc xs) ih

end Service

/-- C3, counterexample.  An        item hit by both the trigram stage
(score 1000) and the token stage (score 1000 + 100) is returned with
the trigram score: later stages skip items already in the map, so the
pipeline does not keep the higher score as the claim states. -/
theorem c3_counterexample :
    Service.search Fixtures.c3State false 3 true "use".data 50 =
      [{ item := Fixtures.c3Item, score := 1000 }] ∧
    SpecModel.specSearch Fixtures.c3State false 3 true "use".data 50 =
      [{ item := Fixtures.c3Item, score := 1100 }] ∧
    Service.search Fixtures.c3State false 3 true "use".data 50 ≠
      SpecModel.specSearch Fixtures.c3State false 3 true "use".data 50 := by
  refine ⟨by decide, by decide, by decide⟩

/-- C3, amended: the pipeline adds token-stage and abbreviation-stage
candidates only for item ids not already present — the earliest
stage's score is kept, not the higher one — then sorts descending by
score (stably, with no name-length tie-break) and truncates to the
limit. -/
theorem c3_search_pipeline :
    (∀ (st : InMemory.State) (cs : Bool) (m : Nat) (cc : Bool) (q : Str) (k : Nat),
      List.Sorted (fun a b : Service.SResult => b.score ≤ a.score)
        (Service.search st cs m cc q k)) ∧
    (∀ (st : InMemory.State) (cs : Bool) (m : Nat) (cc : Bool) (q : Str) (k : Nat),
      (Service.search st cs m cc q k).length ≤ k) ∧
    (∀ (st : InMemory.State) (cs : Bool) (m : Nat) (cc : Bool) (pq : Str) (id : Nat),
      Service.hasKey (Service.stage1 st cs m pq) id = true →
      InMemory.mapGet (Service.stage3 st cc pq
        (Service.stage2 st cs cc pq (Service.stage1 st cs m pq))) id =
      InMemory.mapGet (Service.stage1 st cs m pq) id) := by
  refine ⟨?_, ?_, ?_⟩
  · intro st cs m cc q k
    unfold Service.search
    dsimp only
    split_ifs with h
    · simp
    · exact List.Pairwise.sublist (List.take_sublist _ _) (Service.sorted_sortDesc _)
  · intro st cs m cc q k
    unfold Service.search
    dsimp only
    split_ifs with h
    · simp
    · exact List.length_take_le _ _
  · intro st cs m cc pq id h
    have h2 := Service.stage2_preserves st cs cc pq (Service.stage1 st cs m pq) id h
    rw [Service.stage3_preserves st cc pq _ id h2.2, h2.1]

/-- C3, witness for the amended theorem. -/
theorem c3_search_pipeline_witness :
    InMemory.mapGet (Service.stage3 Fixtures.c3State true "use".data
      (Service.stage2 Fixtures.c3State false true "use".data
        (Service.stage1 Fixtures.c3State false 3 "use".data))) 1 =
    InMemory.mapGet (Service.stage1 Fixtures.c3State false 3 "use".data) 1 :=
  c3_search_pipeline.2.2 Fixtures.c3State false 3 true "use".data 1 (by decide)

end SearchEverything
